import Mathlib

/-
Verification of the directory-harvesting pipeline in
src/scripting/get_game_data.py.

Strings are modelled as `List Char`; a filesystem path is a list of
components (`List (List Char)`).  Python exceptions are modelled with an
explicit error type: a function that can raise returns `Except PyErr _`.
-/

namespace GameData

/-- Python exceptions that the modelled code can raise. -/
inductive PyErr where
  | indexError
  | fileNotFoundError
  | fileExistsError
  | isADirectoryError
  | notADirectoryError
  deriving DecidableEq

instance {ε α : Type} [DecidableEq ε] [DecidableEq α] :
    DecidableEq (Except ε α) := fun a b =>
  match a, b with
  | Except.ok x, Except.ok y =>
    if h : x = y then Decidable.isTrue (by simp [h])
    else Decidable.isFalse (by simp [h])
  | Except.ok _, Except.error _ => Decidable.isFalse (by simp)
  | Except.error _, Except.ok _ => Decidable.isFalse (by simp)
  | Except.error e, Except.error e' =>
    if h : e = e' then Decidable.isTrue (by simp [h])
    else Decidable.isFalse (by simp [h])

/-- ASCII lowercasing, as used by Python case-insensitive matching
(`re.IGNORECASE` on ASCII subject strings). -/
def lowerChar (c : Char) : Char :=
  if 'A' ≤ c ∧ c ≤ 'Z' then Char.ofNat (c.toNat + 32) else c

/-- Tokens of the regular-expression subset that the script's patterns use:
literal characters and the metacharacter `.` (any character).
`get_names_from_paths` hands its `to_strip` argument to `re.findall`,
which interprets it as a regex. -/
inductive RTok where
  | lit (c : Char)
  | dot
  deriving DecidableEq

/-- Interpretation of a pattern string by the `re` module, restricted to
the constructs exercised here: `.` is a metacharacter, every other
character is a literal. -/
def parseRegex : List Char → List RTok
  | [] => []
  | c :: rest => (if c = '.' then RTok.dot else RTok.lit c) :: parseRegex rest

/-- Does the token list match a prefix of `s`?  Literals compare
case-insensitively, modelling `flags=re.IGNORECASE`. -/
def reMatchesAt : List RTok → List Char → Bool
  | [], _ => true
  | _ :: _, [] => false
  | RTok.dot :: ts, _ :: s => reMatchesAt ts s
  | RTok.lit c :: ts, d :: s => (lowerChar c = lowerChar d) && reMatchesAt ts s

/-- First (leftmost) match of the token list in `s`, returned as the matched
text in its original case: the behaviour of `re.findall(...)[0]` for the
fixed-width patterns used here (`none` models the empty findall list, whose
`[0]` raises `IndexError`). -/
def reFindFirst (toks : List RTok) : List Char → Option (List Char)
  | [] => if reMatchesAt toks [] then some (List.take toks.length []) else none
  | c :: s' =>
    if reMatchesAt toks (c :: s') then some ((c :: s').take toks.length)
    else reFindFirst toks s'

/-- Python `s.replace(pat, "")`: delete every non-overlapping occurrence of
`pat`, scanning left to right.  (With an empty `pat` the Python call
returns `s` unchanged.)  After a match the scan resumes past the matched
text: for a non-empty `pat` that is `(c :: s').drop pat.length =
s'.drop (pat.length - 1)`. -/
def replaceAll (pat : List Char) : List Char → List Char
  | [] => []
  | c :: s' =>
    if pat = [] then c :: s'
    else if pat.isPrefixOf (c :: s') then replaceAll pat (s'.drop (pat.length - 1))
    else c :: replaceAll pat s'
termination_by s => s.length
decreasing_by
  · simp only [List.length_drop, List.length_cons]
    omega
  · simp

/-- The `get_names_from_paths` function of the script: for each path's final
name component, take the first case-insensitive regex match of `to_strip`
and delete every occurrence of that matched text (Python `str.replace`
replaces all occurrences).  A name with no match makes
`re.findall(...)[0]` raise `IndexError`.  Each path is represented by
its final name component, the only part the function reads. -/
def get_names_from_paths (paths : List (List Char)) (to_strip : List Char) :
    Except PyErr (List (List Char)) :=
  match paths with
  | [] => Except.ok []
  | dirname :: rest =>
    match reFindFirst (parseRegex to_strip) dirname with
    | none => Except.error PyErr.indexError
    | some found =>
      match get_names_from_paths rest to_strip with
      | Except.error e => Except.error e
      | Except.ok names => Except.ok (replaceAll found dirname :: names)

/-- Literal variant of the first-match search, following the spec's words:
the pattern is a plain substring, searched case-insensitively, no regex
interpretation.  Used to compare the code's regex behaviour against
literal matching. -/
def litFindFirst (pat : List Char) : List Char → Option (List Char)
  | [] => if pat = [] then some [] else none
  | c :: s' =>
    if ((c :: s').take pat.length).map lowerChar = pat.map lowerChar then
      some ((c :: s').take pat.length)
    else litFindFirst pat s'

/-- Name transformation as the spec describes it, with the pattern taken as a
literal substring (contrast with `get_names_from_paths`, which passes the
pattern to the regex engine). -/
def get_names_literal (paths : List (List Char)) (to_strip : List Char) :
    Except PyErr (List (List Char)) :=
  match paths with
  | [] => Except.ok []
  | dirname :: rest =>
    match litFindFirst to_strip dirname with
    | none => Except.error PyErr.indexError
    | some found =>
      match get_names_literal rest to_strip with
      | Except.error e => Except.error e
      | Except.ok names => Except.ok (replaceAll found dirname :: names)

/-- Does the pattern match case-insensitively at position `i` of `s`
(as a literal substring)? -/
def ciMatchAt (pat s : List Char) (i : Nat) : Bool :=
  ((s.drop i).take pat.length).map lowerChar = pat.map lowerChar

/-- Case-insensitive literal substring containment. -/
def containsCI (pat s : List Char) : Bool :=
  (List.range (s.length + 1)).any (fun i => ciMatchAt pat s i)

/-
Game Directory Finder.  `find_all_game_paths` filters the one-level glob
`source_dir.glob(DIR_PATTERN)` down to directories.  The glob pattern is
modelled by fnmatch-style tokens: `*`, a bracketed character class, or a
literal character (the subset of glob syntax the pattern uses; no ranges,
no negation, no `?`).
-/

/-- Glob pattern tokens. -/
inductive GTok where
  | star
  | cls (cs : List Char)
  | glit (c : Char)
  deriving DecidableEq

/-- Read a bracketed character class: the characters up to the closing `]`,
each taken literally (fnmatch puts every listed character in the class, so
in `[g|G]` the `|` is itself a member). -/
def readClass : List Char → List Char × List Char
  | [] => ([], [])
  | c :: rest =>
    if c = ']' then ([], rest)
    else
      let r := readClass rest
      (c :: r.1, r.2)

/-- Parse a glob pattern string into tokens. -/
def parseGlob : List Char → List GTok
  | [] => []
  | c :: rest =>
    if c = '*' then GTok.star :: parseGlob rest
    else if c = '[' then
      let r := readClass rest
      GTok.cls r.1 :: parseGlob r.2
    else GTok.glit c :: parseGlob rest
termination_by s => s.length
decreasing_by
  · simp
  · have hlen : ∀ s : List Char, (readClass s).2.length ≤ s.length := by
      intro s
      induction s with
      | nil => simp [readClass]
      | cons c rest ih =>
        by_cases hc : c = ']'
        · simp [readClass, hc]
        · simp [readClass, hc]
          omega
    have := hlen rest
    simp only [List.length_cons]
    omega
  · simp

/-- fnmatch-style matching of a token list against a whole name
(case-sensitive, as pathlib glob on POSIX). -/
def globMatch : List GTok → List Char → Bool
  | [], [] => true
  | [], _ :: _ => false
  | GTok.star :: ps, s =>
    globMatch ps s ||
      match s with
      | [] => false
      | _ :: s' => globMatch (GTok.star :: ps) s'
  | GTok.cls _ :: _, [] => false
  | GTok.cls cs :: ps, c :: s => cs.contains c && globMatch ps s
  | GTok.glit _ :: _, [] => false
  | GTok.glit a :: ps, c :: s => (a = c) && globMatch ps s
termination_by toks s => (s.length, toks.length)

/-- The module constant `DIR_PATTERN`. -/
def DIR_PATTERN : String := "*[g|G][a|A][m|M][e|E]*"

/-- A child entry of the source directory: its name and whether it is a
directory. -/
structure Entry where
  name : List Char
  isDir : Bool
  deriving DecidableEq

/-- The `find_all_game_paths` function: keep, in listing order, the entries
matching the glob `DIR_PATTERN` that are directories. -/
def find_all_game_paths (entries : List Entry) : List Entry :=
  entries.filter (fun e => globMatch (parseGlob DIR_PATTERN.toList) e.name && e.isDir)

/-
Path model.  A filesystem path is a list of name components; the existing
filesystem is the list of paths that exist.  `resolvePure` performs the
pure part of `pathlib.Path(s).resolve()`: make the path absolute against
the current working directory and normalise `.`, `..` and empty
components (no symbolic links are modelled).
-/

/-- Split a path string on `/`. -/
def splitOnSlash : List Char → List (List Char)
  | [] => [[]]
  | c :: rest =>
    match splitOnSlash rest with
    | [] => if c = '/' then [[], []] else [[c]]
    | h :: t => if c = '/' then [] :: h :: t else (c :: h) :: t

/-- One step of path normalisation. -/
def resolveStep (acc : List (List Char)) (comp : List Char) : List (List Char) :=
  if comp = [] ∨ comp = ['.'] then acc
  else if comp = ['.', '.'] then acc.dropLast
  else acc ++ [comp]

/-- Canonical absolute form of a path string, relative paths taken against
`cwd`. -/
def resolvePure (cwd : List (List Char)) (s : List Char) : List (List Char) :=
  let init : List (List Char) :=
    match s with
    | '/' :: _ => []
    | _ => cwd
  (splitOnSlash s).foldl resolveStep init

/-- The `get_absolute_path` function: `pathlib.Path(dir_file).resolve(dir_file)`.
The string `dir_file` is passed as the positional `strict` argument of
`resolve`, so resolution is strict exactly when the string is non-empty
(Python truthiness); strict resolution of a path that does not exist
raises `FileNotFoundError`. -/
def get_absolute_path (fs : List (List (List Char))) (cwd : List (List Char))
    (dir_file : List Char) : Except PyErr (List (List Char)) :=
  let strict : Bool := dir_file ≠ []
  let p := resolvePure cwd dir_file
  if strict ∧ p ∉ fs then Except.error PyErr.fileNotFoundError
  else Except.ok p

/-- Python `Path(p).mkdir(exist_ok=True)` (no `parents=True`): a no-op when
the directory exists; creates it when its parent exists; otherwise raises
`FileNotFoundError`. -/
def mkdirExistOk (fs : List (List (List Char))) (p : List (List Char)) :
    Except PyErr (List (List (List Char))) :=
  if p ∈ fs then Except.ok fs
  else if p.dropLast ∈ fs then Except.ok (p :: fs)
  else Except.error PyErr.fileNotFoundError

/-- The `setup_target_dir` function: `Path(dirname).mkdir(exist_ok=True)`
followed by `get_absolute_path(dirname)`.  Returns the updated filesystem
and the returned path. -/
def setup_target_dir (fs : List (List (List Char))) (cwd : List (List Char))
    (dirname : List Char) :
    Except PyErr (List (List (List Char)) × List (List Char)) :=
  match mkdirExistOk fs (resolvePure cwd dirname) with
  | Except.error e => Except.error e
  | Except.ok fs' =>
    match get_absolute_path fs' cwd dirname with
    | Except.error e => Except.error e
    | Except.ok p => Except.ok (fs', p)

/-
Directory Materializer.  A filesystem subtree is a file with its byte
content or a directory with named children.  `copy_and_overwrite` models
`shutil.copytree(src, dst, dirs_exist_ok=True)`: walk the source tree,
overwrite files at the destination, merge directories, keep destination
entries the source lacks; a file/directory kind clash raises.
-/

/-- A filesystem subtree. -/
inductive FTree where
  | file (content : List Char)
  | dir (children : List (String × FTree))

/-- First child with the given name. -/
def lookupChild (name : String) : List (String × FTree) → Option FTree
  | [] => none
  | (n, t) :: rest => if n = name then some t else lookupChild name rest

/-- Replace the child with the given name (append when absent). -/
def updateChild (name : String) (t : FTree) :
    List (String × FTree) → List (String × FTree)
  | [] => [(name, t)]
  | (n, u) :: rest =>
    if n = name then (n, t) :: rest else (n, u) :: updateChild name t rest

/-- Copy the source entries into the destination children, in source order:
a source file overwrites a destination file (`shutil.copy2`), a source
directory merges recursively into a destination directory
(`copytree(..., dirs_exist_ok=True)`), and a kind clash raises the
corresponding `OSError`. -/
def copyEntries : List (String × FTree) → List (String × FTree) →
    Except PyErr (List (String × FTree))
  | [], acc => Except.ok acc
  | (name, FTree.file c) :: rest, acc =>
    match lookupChild name acc with
    | some (FTree.dir _) => Except.error PyErr.isADirectoryError
    | _ => copyEntries rest (updateChild name (FTree.file c) acc)
  | (name, FTree.dir cs) :: rest, acc =>
    match lookupChild name acc with
    | some (FTree.file _) => Except.error PyErr.fileExistsError
    | some (FTree.dir ds) =>
      match copyEntries cs ds with
      | Except.error e => Except.error e
      | Except.ok sub => copyEntries rest (updateChild name (FTree.dir sub) acc)
    | none =>
      match copyEntries cs [] with
      | Except.error e => Except.error e
      | Except.ok sub => copyEntries rest (updateChild name (FTree.dir sub) acc)

/-- The `copy_and_overwrite` function:
`shutil.copytree(src=source, dst=dest, dirs_exist_ok=True)`.  `dst` is the
subtree already present at the destination path, or `none` when the
destination does not exist yet. -/
def copy_and_overwrite (src : FTree) (dst : Option FTree) : Except PyErr FTree :=
  match src with
  | FTree.file _ => Except.error PyErr.notADirectoryError
  | FTree.dir cs =>
    match dst with
    | some (FTree.file _) => Except.error PyErr.fileExistsError
    | some (FTree.dir ds) =>
      match copyEntries cs ds with
      | Except.error e => Except.error e
      | Except.ok r => Except.ok (FTree.dir r)
    | none =>
      match copyEntries cs [] with
      | Except.error e => Except.error e
      | Except.ok r => Except.ok (FTree.dir r)

/-- Does a child with this name occur in the list? -/
def hasKey (n : String) : List (String × FTree) → Bool
  | [] => false
  | (m, _) :: rest => (m = n) || hasKey n rest

mutual
/-- A real directory tree: sibling names are distinct at every level. -/
def wfTree : FTree → Bool
  | FTree.file _ => true
  | FTree.dir cs => wfList cs

/-- Well-formedness of a children list. -/
def wfList : List (String × FTree) → Bool
  | [] => true
  | (n, t) :: rest => !hasKey n rest && wfTree t && wfList rest
end

/-
Metadata Writer.  JSON values; the flat filesystem maps a path to the JSON
document stored there.  `json.dump` on mode-"w" (truncating) file handles
is modelled as a pointwise map update.
-/

/-- JSON values (the fragment `json.dump` receives here). -/
inductive Json where
  | str (s : List Char)
  | num (n : Nat)
  | arr (xs : List Json)
  | obj (fields : List (String × Json))

/-- Field lookup in a JSON object. -/
def jlookup (k : String) : List (String × Json) → Option Json
  | [] => none
  | (n, v) :: rest => if n = k then some v else jlookup k rest

/-- The `make_json_metadata_file` function: open
`path/metadata.json` with mode `"w"` (truncate) and dump
`{"game_names": dirs, "number_of_games": len(dirs)}`.  The result is the
new filesystem contents. -/
def make_json_metadata_file (fsFiles : List (List Char) → Option Json)
    (path : List (List Char)) (dirs : List (List Char)) :
    List (List Char) → Option Json :=
  fun q =>
    if q = path ++ ["metadata.json".toList] then
      some (Json.obj
        [("game_names", Json.arr (dirs.map Json.str)),
         ("number_of_games", Json.num dirs.length)])
    else fsFiles q

/-
Build Runner.  `compile_code_files` iterates over the files matched by
`path.rglob("*.go")` in enumeration order.  Each step records the current
working directory (`pathlib.Path().absolute()`), changes into the file's
parent, invokes `run(COMPILE_COMMAND + [file.name], ...)` and changes
back.  `subprocess.run` without `check=True` returns normally on any exit
status but raises (e.g. `FileNotFoundError`) when the command cannot be
launched; nothing catches that exception, so it aborts the loop with the
working directory left unchanged at the file's parent.
-/

/-- The module constant `COMPILE_COMMAND`. -/
def COMPILE_COMMAND : List String := ["go", "build"]

/-- A matched build-source file: its parent directory and bare name. -/
structure BFile where
  parent : List (List Char)
  name : String
  deriving DecidableEq

/-- Outcome of one `subprocess.run` invocation. -/
inductive RunResult where
  | completed (exitCode : Int)
  | launchFailure
  deriving DecidableEq

/-- Process state observed by the runner: the working directory and the log
of commands invoked so far, in order. -/
structure BState where
  cwd : List (List Char)
  invoked : List (List String)
  deriving DecidableEq

/-- The `compile_code_files` loop over the matched files, given the
environment's response `behavior` to each invocation.  Returns the final
process state and the uncaught exception, if any. -/
def compile_code_files (behavior : BFile → RunResult) :
    List BFile → BState → BState × Option PyErr
  | [], st => (st, none)
  | f :: rest, st =>
    let cwd0 := st.cwd
    let st1 : BState :=
      { cwd := f.parent, invoked := st.invoked ++ [COMPILE_COMMAND ++ [f.name]] }
    match behavior f with
    | RunResult.launchFailure => (st1, some PyErr.fileNotFoundError)
    | RunResult.completed _ =>
      compile_code_files behavior rest { cwd := cwd0, invoked := st1.invoked }

/-
Shared lemmas.
-/

theorem toNat_ofNat_of_lt {n : Nat} (h : n < 55296) : (Char.ofNat n).toNat = n := by
  unfold Char.ofNat
  rw [dif_pos (Or.inl h : Char.isValidCharNat n)]
  unfold Char.ofNatAux
  simp [Char.toNat, UInt32.ofNat]
  rfl

/-- A character lowercasing to the lowercase letter `d` is `d` itself or its
uppercase counterpart. -/
theorem lowerChar_eq_letter {c d : Char} (h97 : 97 ≤ d.toNat)
    (h122 : d.toNat ≤ 122) (he : lowerChar c = d) :
    c = d ∨ c = Char.ofNat (d.toNat - 32) := by
  unfold lowerChar at he
  by_cases hA : 'A' ≤ c ∧ c ≤ 'Z'
  · rw [if_pos hA] at he
    right
    have hl : 65 ≤ c.toNat := by
      have := hA.1
      rw [Char.le_def] at this
      exact this
    have hh : c.toNat ≤ 90 := by
      have := hA.2
      rw [Char.le_def] at this
      exact this
    have hv : (Char.ofNat (c.toNat + 32)).toNat = c.toNat + 32 :=
      toNat_ofNat_of_lt (by omega)
    rw [he] at hv
    have hn : c.toNat = d.toNat - 32 := by omega
    have hc := congrArg Char.ofNat hn
    rwa [Char.ofNat_toNat] at hc
  · rw [if_neg hA] at he
    exact Or.inl he

/-- For a pattern without the `.` metacharacter, the regex engine's prefix
match is exactly the case-insensitive literal prefix comparison. -/
theorem reMatchesAt_lit (pat : List Char) (hdot : '.' ∉ pat) (s : List Char) :
    reMatchesAt (parseRegex pat) s = true ↔
      (s.take pat.length).map lowerChar = pat.map lowerChar := by
  induction pat generalizing s with
  | nil => simp [parseRegex, reMatchesAt]
  | cons c pat' ih =>
    have hc : c ≠ '.' := fun h => hdot (by simp [h])
    have hdot' : '.' ∉ pat' := fun h => hdot (by simp [h])
    cases s with
    | nil => simp [parseRegex, hc, reMatchesAt]
    | cons d s' =>
      simp only [parseRegex, if_neg hc, reMatchesAt, List.length_cons,
        List.take_succ_cons, List.map_cons, List.cons.injEq,
        Bool.and_eq_true, decide_eq_true_eq]
      rw [ih hdot']
      constructor
      · rintro ⟨h1, h2⟩
        exact ⟨h1.symm, h2⟩
      · rintro ⟨h1, h2⟩
        exact ⟨h1.symm, h2⟩

/-- When no position of `s` matches the pattern case-insensitively, the
first-match search fails. -/
theorem reFindFirst_eq_none (pat : List Char) (hdot : '.' ∉ pat)
    (s : List Char) (hall : ∀ i, ciMatchAt pat s i = false) :
    reFindFirst (parseRegex pat) s = none := by
  induction s with
  | nil =>
    rw [reFindFirst]
    rw [if_neg]
    intro h
    have hm := (reMatchesAt_lit pat hdot []).mp h
    have h0 := hall 0
    simp only [ciMatchAt, List.drop_nil] at h0
    exact absurd hm (by simpa using h0)
  | cons c s' ih =>
    rw [reFindFirst]
    rw [if_neg]
    · exact ih (fun i => by
        have := hall (i + 1)
        simpa [ciMatchAt] using this)
    · intro h
      have hm := (reMatchesAt_lit pat hdot (c :: s')).mp h
      have h0 := hall 0
      simp only [ciMatchAt, List.drop_zero] at h0
      exact absurd hm (by simpa using h0)

/-- The glob pattern `*[g|G][a|A][m|M][e|E]*` parses to a star, four
three-character classes — each containing `|` alongside the two letter
cases — and a star. -/
theorem dirPattern_toks : parseGlob DIR_PATTERN.toList =
    [GTok.star, GTok.cls ['g', '|', 'G'], GTok.cls ['a', '|', 'A'],
     GTok.cls ['m', '|', 'M'], GTok.cls ['e', '|', 'E'], GTok.star] := by
  simp [DIR_PATTERN, parseGlob, readClass]

theorem globMatch_star_only (s : List Char) : globMatch [GTok.star] s = true := by
  induction s with
  | nil => simp [globMatch]
  | cons c s' ih => simp [globMatch, ih]

theorem globMatch_star_cons (ps : List GTok) (c : Char) (s : List Char)
    (h : globMatch (GTok.star :: ps) s = true) :
    globMatch (GTok.star :: ps) (c :: s) = true := by
  rw [globMatch.eq_def]
  simp only
  simp [h]

theorem globMatch_star_append (ps : List GTok) (a s : List Char)
    (h : globMatch (GTok.star :: ps) s = true) :
    globMatch (GTok.star :: ps) (a ++ s) = true := by
  induction a with
  | nil => simpa
  | cons c a' ih => exact globMatch_star_cons ps c (a' ++ s) ih

theorem globMatch_game_core (c1 c2 c3 c4 : Char) (b : List Char)
    (h1 : c1 = 'g' ∨ c1 = 'G') (h2 : c2 = 'a' ∨ c2 = 'A')
    (h3 : c3 = 'm' ∨ c3 = 'M') (h4 : c4 = 'e' ∨ c4 = 'E') :
    globMatch [GTok.cls ['g', '|', 'G'], GTok.cls ['a', '|', 'A'],
        GTok.cls ['m', '|', 'M'], GTok.cls ['e', '|', 'E'], GTok.star]
      (c1 :: c2 :: c3 :: c4 :: b) = true := by
  rcases h1 with h1 | h1 <;> rcases h2 with h2 | h2 <;>
    rcases h3 with h3 | h3 <;> rcases h4 with h4 | h4 <;>
    subst h1 <;> subst h2 <;> subst h3 <;> subst h4 <;>
    simp [globMatch, globMatch_star_only]

theorem char_case_g {c : Char} (h : lowerChar c = 'g') : c = 'g' ∨ c = 'G' := by
  rcases lowerChar_eq_letter (by decide) (by decide) h with h1 | h1
  · exact Or.inl h1
  · right
    rw [h1]
    decide

theorem char_case_a {c : Char} (h : lowerChar c = 'a') : c = 'a' ∨ c = 'A' := by
  rcases lowerChar_eq_letter (by decide) (by decide) h with h1 | h1
  · exact Or.inl h1
  · right
    rw [h1]
    decide

theorem char_case_m {c : Char} (h : lowerChar c = 'm') : c = 'm' ∨ c = 'M' := by
  rcases lowerChar_eq_letter (by decide) (by decide) h with h1 | h1
  · exact Or.inl h1
  · right
    rw [h1]
    decide

theorem char_case_e {c : Char} (h : lowerChar c = 'e') : c = 'e' ∨ c = 'E' := by
  rcases lowerChar_eq_letter (by decide) (by decide) h with h1 | h1
  · exact Or.inl h1
  · right
    rw [h1]
    decide

theorem map_lower_game_shape (w : List Char)
    (h : w.map lowerChar = ['g', 'a', 'm', 'e']) :
    ∃ c1 c2 c3 c4, w = [c1, c2, c3, c4] ∧ lowerChar c1 = 'g' ∧
      lowerChar c2 = 'a' ∧ lowerChar c3 = 'm' ∧ lowerChar c4 = 'e' := by
  cases w with
  | nil => simp at h
  | cons c1 t1 =>
    cases t1 with
    | nil => simp at h
    | cons c2 t2 =>
      cases t2 with
      | nil => simp at h
      | cons c3 t3 =>
        cases t3 with
        | nil => simp at h
        | cons c4 t4 =>
          cases t4 with
          | cons c5 t5 => simp at h
          | nil =>
            simp only [List.map_cons, List.map_nil, List.cons.injEq,
              and_true] at h
            exact ⟨c1, c2, c3, c4, rfl, h.1, h.2.1, h.2.2.1, h.2.2.2⟩

/-- Any name containing `game` case-insensitively matches the glob
`*[g|G][a|A][m|M][e|E]*`. -/
theorem globMatch_of_containsCI_game (name : List Char)
    (h : containsCI "game".toList name = true) :
    globMatch (parseGlob DIR_PATTERN.toList) name = true := by
  rw [dirPattern_toks]
  obtain ⟨i, _, hci⟩ := List.any_eq_true.mp h
  have hmap : ((name.drop i).take 4).map lowerChar = ['g', 'a', 'm', 'e'] := by
    simp only [ciMatchAt, decide_eq_true_eq] at hci
    have hlen : ("game".toList).length = 4 := by decide
    rw [hlen] at hci
    rw [hci]
    decide
  obtain ⟨c1, c2, c3, c4, hw, hg, ha, hm, he⟩ :=
    map_lower_game_shape _ hmap
  have hdecomp :
      name = name.take i ++ ((name.drop i).take 4 ++ (name.drop i).drop 4) := by
    rw [List.take_append_drop, List.take_append_drop]
  rw [hdecomp, hw]
  apply globMatch_star_append
  rw [globMatch.eq_def]
  simp only
  simp only [Bool.or_eq_true]
  left
  exact globMatch_game_core c1 c2 c3 c4 _ (char_case_g hg) (char_case_a ha)
    (char_case_m hm) (char_case_e he)

/-- Past the end of the string, a non-empty pattern cannot match. -/
theorem ciMatchAt_false_of_gt (pat s : List Char) (j : Nat) (hp : pat ≠ [])
    (hj : s.length < j) : ciMatchAt pat s j = false := by
  have hd : s.drop j = [] := List.drop_eq_nil_of_le (by omega)
  simp only [ciMatchAt, hd, List.take_nil, List.map_nil]
  rw [decide_eq_false_iff_not]
  intro h
  exact hp (by simpa using h.symm)

/-- Completeness of `containsCI`: if it is `false` then no position matches. -/
theorem ciMatchAt_of_containsCI_false (pat s : List Char) (hp : pat ≠ [])
    (hnc : containsCI pat s = false) : ∀ i, ciMatchAt pat s i = false := by
  intro i
  by_cases hi : i ≤ s.length
  · have hm := List.any_eq_false.mp hnc i (by
      simp only [List.mem_range]
      omega)
    simpa using hm
  · exact ciMatchAt_false_of_gt pat s i hp (by omega)

theorem parseRegex_length (pat : List Char) :
    (parseRegex pat).length = pat.length := by
  induction pat with
  | nil => simp [parseRegex]
  | cons c rest ih => simp [parseRegex, ih]

/-- The first-match search returns the original-case text at position `i`
when `i` matches and no earlier position does. -/
theorem reFindFirst_at (pat : List Char) (hdot : '.' ∉ pat) (s : List Char) :
    ∀ i : Nat, ciMatchAt pat s i = true →
      (∀ j, j < i → ciMatchAt pat s j = false) →
      reFindFirst (parseRegex pat) s = some ((s.drop i).take pat.length) := by
  induction s with
  | nil =>
    intro i hm _
    have hpat : pat = [] := by
      have hmap : (([] : List Char).map lowerChar) = pat.map lowerChar := by
        simpa [ciMatchAt] using hm
      simpa using hmap.symm
    subst hpat
    simp [reFindFirst, reMatchesAt, parseRegex]
  | cons c s' ih =>
    intro i hm hb
    cases i with
    | zero =>
      rw [reFindFirst]
      rw [if_pos]
      · rw [parseRegex_length]
        simp
      · rw [reMatchesAt_lit pat hdot]
        simpa [ciMatchAt] using hm
    | succ k =>
      rw [reFindFirst]
      rw [if_neg]
      · have hm' : ciMatchAt pat s' k = true := by
          simpa [ciMatchAt] using hm
        have hb' : ∀ j, j < k → ciMatchAt pat s' j = false := fun j hj => by
          have := hb (j + 1) (by omega)
          simpa [ciMatchAt] using this
        rw [ih k hm' hb']
        simp
      · rw [reMatchesAt_lit pat hdot]
        have h0 := hb 0 (by omega)
        simpa [ciMatchAt] using h0

theorem isPrefixOf_iff_take {w u : List Char} :
    w.isPrefixOf u = true ↔ u.take w.length = w := by
  rw [ List.isPrefixOf_iff_prefix]
  constructor
  · intro h
    exact (List.prefix_iff_eq_take.mp h).symm
  · intro h
    rw [List.prefix_iff_eq_take]
    exact h.symm

/-- Python `str.replace` leaves a string with no occurrence of the pattern
unchanged. -/
theorem replaceAll_no_occ (w : List Char) (hw : w ≠ []) :
    ∀ s : List Char, (∀ j, w.isPrefixOf (s.drop j) = false) →
      replaceAll w s = s := by
  intro s
  induction s with
  | nil => intro _; rw [replaceAll]
  | cons c s' ih =>
    intro h
    rw [replaceAll]
    rw [if_neg hw, if_neg]
    · rw [ih (fun j => by
        have := h (j + 1)
        simpa using this)]
    · have h0 := h 0
      simp only [List.drop_zero] at h0
      simp [h0]

/-- Python `str.replace` walks over an occurrence-free prefix, deletes the
occurrence that follows it, and continues on the remainder. -/
theorem replaceAll_skip (w : List Char) (hw : w ≠ []) :
    ∀ a b : List Char,
      (∀ j, j < a.length → w.isPrefixOf ((a ++ (w ++ b)).drop j) = false) →
      replaceAll w (a ++ (w ++ b)) = a ++ replaceAll w b := by
  intro a
  induction a with
  | nil =>
    intro b _
    simp only [List.nil_append]
    cases w with
    | nil => exact absurd rfl hw
    | cons cw w' =>
      rw [List.cons_append, replaceAll, if_neg hw, if_pos]
      · have hd : (w' ++ b).drop ((cw :: w').length - 1) = b := by
          simp only [List.length_cons, Nat.add_sub_cancel]
          exact List.drop_left w' b
        rw [hd]
      · rw [isPrefixOf_iff_take]
        simp only [List.length_cons, List.take_succ_cons, List.cons.injEq,
          true_and]
        exact List.take_left w' b
  | cons c a' ih =>
    intro b h
    rw [List.cons_append, replaceAll, if_neg hw, if_neg]
    · rw [ih b (fun j hj => by
        have := h (j + 1) (by simpa using Nat.succ_lt_succ hj)
        simpa using this)]
      simp
    · have h0 := h 0 (by simp)
      simp only [List.drop_zero] at h0
      rw [List.cons_append] at h0
      simp [h0]

/-- When every invocation launches (any exit status), the runner walks the
whole file list in order, logs one command per file, and ends with the
initial working directory. -/
theorem compile_complete (behavior : BFile → RunResult) (files : List BFile)
    (st : BState) (hall : ∀ f ∈ files, behavior f ≠ RunResult.launchFailure) :
    compile_code_files behavior files st =
      ({ cwd := st.cwd,
         invoked := st.invoked ++
           files.map (fun f => COMPILE_COMMAND ++ [f.name]) }, none) := by
  induction files generalizing st with
  | nil => simp [compile_code_files]
  | cons f rest ih =>
    have hf := hall f (by simp)
    match hb : behavior f with
    | RunResult.launchFailure => exact absurd hb hf
    | RunResult.completed c =>
      rw [compile_code_files, hb]
      rw [ih _ (fun g hg => hall g (by simp [hg]))]
      simp

theorem lookup_update_self (name : String) (t : FTree)
    (cs : List (String × FTree)) :
    lookupChild name (updateChild name t cs) = some t := by
  induction cs with
  | nil => simp [updateChild, lookupChild]
  | cons p rest ih =>
    obtain ⟨pn, pt⟩ := p
    by_cases h : pn = name
    · simp [updateChild, h, lookupChild]
    · simp [updateChild, h, lookupChild, ih]

theorem lookup_update_ne (n name : String) (hne : n ≠ name) (t : FTree)
    (cs : List (String × FTree)) :
    lookupChild n (updateChild name t cs) = lookupChild n cs := by
  induction cs with
  | nil => simp [updateChild, lookupChild, hne.symm]
  | cons p rest ih =>
    obtain ⟨pn, pt⟩ := p
    by_cases h : pn = name
    · subst h
      simp [updateChild, lookupChild, Ne.symm hne]
    · simp [updateChild, h, lookupChild, ih]

theorem update_of_lookup (name : String) (t : FTree)
    (cs : List (String × FTree))
    (h : lookupChild name cs = some t) : updateChild name t cs = cs := by
  induction cs with
  | nil => simp [lookupChild] at h
  | cons p rest ih =>
    obtain ⟨pn, pt⟩ := p
    by_cases hp : pn = name
    · simp only [lookupChild, if_pos hp] at h
      simp only [updateChild, if_pos hp]
      rw [Option.some_inj.mp h]
    · simp only [lookupChild, if_neg hp] at h
      simp only [updateChild, if_neg hp]
      rw [ih h]


theorem copyEntries_frame (cs acc : List (String × FTree)) :
    ∀ r, copyEntries cs acc = Except.ok r →
      ∀ n, hasKey n cs = false → lookupChild n r = lookupChild n acc := by
  induction cs, acc using copyEntries.induct with
  | case1 acc =>
    intro r h n _
    rw [copyEntries] at h
    simp only [Except.ok.injEq] at h
    rw [h]
  | case2 name c rest acc children hlook =>
    intro r h n _
    rw [copyEntries] at h
    rw [hlook] at h
    simp at h
  | case3 name c rest acc hnotdir ih =>
    intro r h n hk
    rw [copyEntries] at h
    split at h
    · next children heq => exact (hnotdir children heq).elim
    · rw [hasKey] at hk
      simp only [Bool.or_eq_false_iff, decide_eq_false_iff_not] at hk
      rw [ih r h n hk.2]
      exact lookup_update_ne n name (fun hh => hk.1 hh.symm) _ acc
  | case4 name cs rest acc content hlook =>
    intro r h n _
    rw [copyEntries] at h
    rw [hlook] at h
    simp at h
  | case5 name cs rest acc ds hlook e herr ih =>
    intro r h n _
    rw [copyEntries] at h
    rw [hlook] at h
    simp only [herr] at h
    simp at h
  | case6 name cs rest acc ds hlook sub hok ih2 ih1 =>
    intro r h n hk
    rw [copyEntries] at h
    rw [hlook] at h
    simp only [hok] at h
    rw [hasKey] at hk
    simp only [Bool.or_eq_false_iff, decide_eq_false_iff_not] at hk
    rw [ih1 r h n hk.2]
    exact lookup_update_ne n name (fun hh => hk.1 hh.symm) _ acc
  | case7 name cs rest acc hlook e herr ih =>
    intro r h n _
    rw [copyEntries] at h
    rw [hlook] at h
    simp only [herr] at h
    simp at h
  | case8 name cs rest acc hlook sub hok ih2 ih1 =>
    intro r h n hk
    rw [copyEntries] at h
    rw [hlook] at h
    simp only [hok] at h
    rw [hasKey] at hk
    simp only [Bool.or_eq_false_iff, decide_eq_false_iff_not] at hk
    rw [ih1 r h n hk.2]
    exact lookup_update_ne n name (fun hh => hk.1 hh.symm) _ acc

theorem copyEntries_idem (cs acc : List (String × FTree)) :
    ∀ r, wfList cs = true → copyEntries cs acc = Except.ok r →
      copyEntries cs r = Except.ok r := by
  induction cs, acc using copyEntries.induct with
  | case1 acc =>
    intro r _ h
    rw [copyEntries] at h
    rw [copyEntries]
  | case2 name c rest acc children hlook =>
    intro r _ h
    rw [copyEntries] at h
    rw [hlook] at h
    simp at h
  | case3 name c rest acc hnotdir ih =>
    intro r hwf h
    rw [copyEntries] at h
    split at h
    · next children heq => exact (hnotdir children heq).elim
    · rw [wfList] at hwf
      simp only [Bool.and_eq_true, Bool.not_eq_true'] at hwf
      obtain ⟨⟨hkey, _⟩, hwfr⟩ := hwf
      have hlr : lookupChild name r = some (FTree.file c) := by
        rw [copyEntries_frame rest _ r h name hkey]
        exact lookup_update_self name _ acc
      rw [copyEntries]
      split
      · next children heq =>
        rw [hlr] at heq
        simp at heq
      · rw [update_of_lookup name (FTree.file c) r hlr]
        exact ih r hwfr h
  | case4 name cs rest acc content hlook =>
    intro r _ h
    rw [copyEntries] at h
    rw [hlook] at h
    simp at h
  | case5 name cs rest acc ds hlook e herr ih =>
    intro r _ h
    rw [copyEntries] at h
    rw [hlook] at h
    simp only [herr] at h
    simp at h
  | case6 name cs rest acc ds hlook sub hok ih2 ih1 =>
    intro r hwf h
    rw [copyEntries] at h
    rw [hlook] at h
    simp only [hok] at h
    rw [wfList] at hwf
    simp only [Bool.and_eq_true, Bool.not_eq_true'] at hwf
    obtain ⟨⟨hkey, hwft⟩, hwfr⟩ := hwf
    rw [wfTree] at hwft
    have hlr : lookupChild name r = some (FTree.dir sub) := by
      rw [copyEntries_frame rest _ r h name hkey]
      exact lookup_update_self name _ acc
    have hsub : copyEntries cs sub = Except.ok sub := ih2 sub hwft hok
    rw [copyEntries]
    split
    · next heq =>
      rw [hlr] at heq
      simp at heq
    · next ds' heq =>
      rw [hlr] at heq
      simp only [Option.some_inj, FTree.dir.injEq] at heq
      subst heq
      rw [hsub]
      show copyEntries rest (updateChild name (FTree.dir sub) r) = Except.ok r
      rw [update_of_lookup name (FTree.dir sub) r hlr]
      exact ih1 r hwfr h
    · next heq =>
      rw [hlr] at heq
      cases heq
  | case7 name cs rest acc hlook e herr ih =>
    intro r _ h
    rw [copyEntries] at h
    rw [hlook] at h
    simp only [herr] at h
    simp at h
  | case8 name cs rest acc hlook sub hok ih2 ih1 =>
    intro r hwf h
    rw [copyEntries] at h
    rw [hlook] at h
    simp only [hok] at h
    rw [wfList] at hwf
    simp only [Bool.and_eq_true, Bool.not_eq_true'] at hwf
    obtain ⟨⟨hkey, hwft⟩, hwfr⟩ := hwf
    rw [wfTree] at hwft
    have hlr : lookupChild name r = some (FTree.dir sub) := by
      rw [copyEntries_frame rest _ r h name hkey]
      exact lookup_update_self name _ acc
    have hsub : copyEntries cs sub = Except.ok sub := ih2 sub hwft hok
    rw [copyEntries]
    split
    · next heq =>
      rw [hlr] at heq
      simp at heq
    · next ds' heq =>
      rw [hlr] at heq
      simp only [Option.some_inj, FTree.dir.injEq] at heq
      subst heq
      rw [hsub]
      show copyEntries rest (updateChild name (FTree.dir sub) r) = Except.ok r
      rw [update_of_lookup name (FTree.dir sub) r hlr]
      exact ih1 r hwfr h
    · next heq =>
      rw [hlr] at heq
      cases heq

/-
Claim theorems.
-/

/-- C5: the Path Resolver is claimed to return the canonical absolute form of
every path string, including non-existent ones, without raising.  The code
passes the path string itself as the positional `strict` argument of
`Path.resolve`, so any non-empty path string selects strict resolution and
a non-existent location raises `FileNotFoundError`. -/
theorem c5_strict_resolve_error :
    get_absolute_path [[['h', 'o', 'm', 'e']]] [['h', 'o', 'm', 'e']]
      "/nonexistent/xyz".toList = Except.error PyErr.fileNotFoundError := by
  decide

/-- C4 counterexample: with only `/h` existing, `setup_target_dir` on the
two-component destination `a/b` raises `FileNotFoundError` instead of
creating the missing parent, contradicting the claim that missing parent
directories are created. -/
theorem c4_counterexample :
    setup_target_dir [[['h']]] [['h']] "a/b".toList =
      Except.error PyErr.fileNotFoundError := by
  decide

/-- C4 (amended): the Target Preparer creates only the final path component.
It is a no-op returning the canonical absolute path when the destination
exists; it creates the directory and returns that path when the parent
exists; and it raises `FileNotFoundError` when the parent is missing. -/
theorem c4_setup_target_dir_cases (fs : List (List (List Char)))
    (cwd : List (List Char)) (dirname : List Char) :
    (resolvePure cwd dirname ∈ fs →
      setup_target_dir fs cwd dirname =
        Except.ok (fs, resolvePure cwd dirname)) ∧
    (resolvePure cwd dirname ∉ fs → (resolvePure cwd dirname).dropLast ∈ fs →
      setup_target_dir fs cwd dirname =
        Except.ok (resolvePure cwd dirname :: fs, resolvePure cwd dirname)) ∧
    (resolvePure cwd dirname ∉ fs → (resolvePure cwd dirname).dropLast ∉ fs →
      setup_target_dir fs cwd dirname = Except.error PyErr.fileNotFoundError) := by
  refine ⟨fun h1 => ?_, fun h1 h2 => ?_, fun h1 h2 => ?_⟩
  · simp [setup_target_dir, mkdirExistOk, get_absolute_path, h1]
  · simp [setup_target_dir, mkdirExistOk, get_absolute_path, h1, h2]
  · simp [setup_target_dir, mkdirExistOk, h1, h2]

/-- C4 witness: concrete instance of the parent-exists case. -/
theorem c4_witness :
    setup_target_dir [[['h']]] [['h']] "tgt".toList =
      Except.ok ([[['h'], ['t', 'g', 't']], [['h']]], [['h'], ['t', 'g', 't']]) :=
  (c4_setup_target_dir_cases [[['h']]] [['h']] "tgt".toList).2.1
    (by decide) (by decide)

/-- C6 counterexample: three matched files where the second command fails to
launch.  The uncaught `FileNotFoundError` aborts the scan: the third
command is never invoked, contradicting the claim that a command that
fails to launch is non-fatal. -/
theorem c6_counterexample :
    (compile_code_files
        (fun f => if f.name = "b.go" then RunResult.launchFailure
                  else RunResult.completed 0)
        [⟨[], "a.go"⟩, ⟨[], "b.go"⟩, ⟨[], "c.go"⟩] ⟨[['h']], []⟩) =
      (⟨[], [["go", "build", "a.go"], ["go", "build", "b.go"]]⟩,
        some PyErr.fileNotFoundError) ∧
    ["go", "build", "c.go"] ∉
      (compile_code_files
        (fun f => if f.name = "b.go" then RunResult.launchFailure
                  else RunResult.completed 0)
        [⟨[], "a.go"⟩, ⟨[], "b.go"⟩, ⟨[], "c.go"⟩] ⟨[['h']], []⟩).1.invoked := by
  decide

/-- C6 (amended): a build command that launches and exits with any status,
zero or not, is non-fatal: when every command launches, the runner invokes
one build command per matched file, in enumeration order, and finishes the
scan without an exception.  (A command that fails to launch instead raises
an uncaught `FileNotFoundError` that aborts the scan.) -/
theorem c6_nonzero_exit_nonfatal (behavior : BFile → RunResult)
    (files : List BFile) (st : BState)
    (hall : ∀ f ∈ files, behavior f ≠ RunResult.launchFailure) :
    (compile_code_files behavior files st).2 = none ∧
    (compile_code_files behavior files st).1.invoked =
      st.invoked ++ files.map (fun f => COMPILE_COMMAND ++ [f.name]) := by
  rw [compile_complete behavior files st hall]
  exact ⟨rfl, rfl⟩

/-- C6 witness: three files, the second exiting with status 1; all three
build commands are invoked in order and the scan completes. -/
theorem c6_witness :
    (compile_code_files
        (fun f => if f.name = "b.go" then RunResult.completed 1
                  else RunResult.completed 0)
        [⟨[], "a.go"⟩, ⟨[], "b.go"⟩, ⟨[], "c.go"⟩] ⟨[['h']], []⟩).2 = none ∧
    (compile_code_files
        (fun f => if f.name = "b.go" then RunResult.completed 1
                  else RunResult.completed 0)
        [⟨[], "a.go"⟩, ⟨[], "b.go"⟩, ⟨[], "c.go"⟩] ⟨[['h']], []⟩).1.invoked =
      [] ++ [⟨[], "a.go"⟩, ⟨[], "b.go"⟩, (⟨[], "c.go"⟩ : BFile)].map
        (fun f => COMPILE_COMMAND ++ [f.name]) :=
  c6_nonzero_exit_nonfatal
    (fun f => if f.name = "b.go" then RunResult.completed 1
              else RunResult.completed 0)
    [⟨[], "a.go"⟩, ⟨[], "b.go"⟩, ⟨[], "c.go"⟩] ⟨[['h']], []⟩ (by decide)

/-- C7: whenever every invoked build command launches and exits with some
status (zero or not), the working directory recorded before each
invocation is restored after it, so the working directory after the
Build Runner finishes equals the one before it started. -/
theorem c7_cwd_restored (behavior : BFile → RunResult)
    (files : List BFile) (st : BState)
    (hall : ∀ f ∈ files, behavior f ≠ RunResult.launchFailure) :
    (compile_code_files behavior files st).1.cwd = st.cwd := by
  rw [compile_complete behavior files st hall]

/-- C7 witness: two files whose commands exit 0 and 7; the final working
directory equals the initial one. -/
theorem c7_witness :
    (compile_code_files
        (fun f => if f.name = "b.go" then RunResult.completed 7
                  else RunResult.completed 0)
        [⟨[['d']], "a.go"⟩, ⟨[['e']], "b.go"⟩] ⟨[['h']], []⟩).1.cwd = [['h']] :=
  c7_cwd_restored
    (fun f => if f.name = "b.go" then RunResult.completed 7
              else RunResult.completed 0)
    [⟨[['d']], "a.go"⟩, ⟨[['e']], "b.go"⟩] ⟨[['h']], []⟩ (by decide)

/-- C8: every generated metadata file is written at
`destinationRoot/metadata.json`, its `number_of_games` field equals the
length of its `game_names` array, the written contents do not depend on
any prior file at that path (full overwrite), and no other path is
touched. -/
theorem c8_metadata_invariant (fsFiles : List (List Char) → Option Json)
    (path : List (List Char)) (dirs : List (List Char)) :
    (∃ fields,
      make_json_metadata_file fsFiles path dirs
          (path ++ ["metadata.json".toList]) = some (Json.obj fields) ∧
      jlookup "game_names" fields = some (Json.arr (dirs.map Json.str)) ∧
      jlookup "number_of_games" fields =
        some (Json.num (dirs.map Json.str).length)) ∧
    (∀ fsFiles' : List (List Char) → Option Json,
      make_json_metadata_file fsFiles path dirs
          (path ++ ["metadata.json".toList]) =
        make_json_metadata_file fsFiles' path dirs
          (path ++ ["metadata.json".toList])) ∧
    (∀ q, q ≠ path ++ ["metadata.json".toList] →
      make_json_metadata_file fsFiles path dirs q = fsFiles q) := by
  refine ⟨⟨[("game_names", Json.arr (dirs.map Json.str)),
            ("number_of_games", Json.num dirs.length)], ?_, ?_, ?_⟩,
          fun fsFiles' => ?_, fun q hq => ?_⟩
  · simp [make_json_metadata_file]
  · simp [jlookup]
  · simp [jlookup]
  · simp [make_json_metadata_file]
  · simp only [make_json_metadata_file]
    rw [if_neg hq]

/-- C8 witness: a path other than `metadata.json` is untouched. -/
theorem c8_witness :
    make_json_metadata_file (fun _ => none) [] [['a']] [['z']] = none :=
  (c8_metadata_invariant (fun _ => none) [] [['a']]).2.2 [['z']] (by decide)

/-- C10: `get_names_from_paths` hands the pattern to the regex engine, so
the pattern `g.me` (with the `.` metacharacter) matches and removes the
text `gxme`, while literal case-insensitive substring matching finds no
occurrence and fails. -/
theorem c10_regex_interpretation :
    get_names_from_paths ["gxme".toList] "g.me".toList = Except.ok [[]] ∧
    get_names_literal ["gxme".toList] "g.me".toList =
      Except.error PyErr.indexError := by
  constructor
  · simp [get_names_from_paths, reFindFirst, reMatchesAt, parseRegex,
          lowerChar, replaceAll]
  · decide

/-- C3 counterexample: applying the pattern-removal operation to the name
`Two`, which does not contain `game`, reaches `re.findall(...)[0]` on an
empty list and raises an uncaught `IndexError` — an unguarded crash, not
a no-op and not a defined, diagnosable failure. -/
theorem c3_counterexample :
    get_names_from_paths ["Two".toList] "game".toList =
      Except.error PyErr.indexError := by
  decide

/-- C3 (amended): applying the pattern-removal operation to a list
containing a name without any case-insensitive occurrence of the
(metacharacter-free, non-empty) pattern always raises the uncaught
`IndexError`; in particular the name is never silently passed through
unmodified, but the failure is an unguarded crash rather than a defined
error. -/
theorem c3_missing_pattern_index_error (paths : List (List Char))
    (pat name : List Char) (hp : pat ≠ []) (hdot : '.' ∉ pat)
    (hmem : name ∈ paths) (hnc : containsCI pat name = false) :
    get_names_from_paths paths pat = Except.error PyErr.indexError := by
  have hnone : reFindFirst (parseRegex pat) name = none :=
    reFindFirst_eq_none pat hdot name
      (ciMatchAt_of_containsCI_false pat name hp hnc)
  induction paths with
  | nil => cases hmem
  | cons d rest ih =>
    rw [get_names_from_paths]
    rcases List.mem_cons.mp hmem with hd | hrest
    · rw [hd] at hnone
      rw [hnone]
    · cases hfind : reFindFirst (parseRegex pat) d with
      | none => rfl
      | some found =>
        rw [ih hrest]

/-- C3 witness: the theorem applied to the single name `Two` and the
pattern `game`. -/
theorem c3_witness :
    get_names_from_paths ["Two".toList, "MyGame".toList] "game".toList =
      Except.error PyErr.indexError :=
  c3_missing_pattern_index_error ["Two".toList, "MyGame".toList]
    "game".toList "Two".toList (by decide) (by decide) (by decide) (by decide)

/-- C2 counterexample: a directory named `||||` matches the glob
`*[g|G][a|A][m|M][e|E]*` — each bracket class also contains `|` — so the
Finder returns it even though its name does not contain `game`
case-insensitively, contradicting the claim that only names containing
the pattern substring are returned. -/
theorem c2_counterexample :
    (⟨"||||".toList, true⟩ : Entry) ∈
      find_all_game_paths [⟨"||||".toList, true⟩] ∧
    containsCI "game".toList "||||".toList = false := by
  constructor
  · simp [find_all_game_paths, DIR_PATTERN, parseGlob, readClass, globMatch,
      List.filter]
  · decide

/-- C2 (amended): the Finder returns only child directories (never files),
all of them drawn from the listing, and exactly those whose name matches
the glob `*[g|G][a|A][m|M][e|E]*`; every directory whose name contains
`game` case-insensitively is among them, but the glob also admits names
using `|` in place of pattern letters. -/
theorem c2_finder_dirs_glob (entries : List Entry) (e : Entry) :
    (e ∈ find_all_game_paths entries →
      e ∈ entries ∧ e.isDir = true ∧
        globMatch (parseGlob DIR_PATTERN.toList) e.name = true) ∧
    (e ∈ entries → e.isDir = true → containsCI "game".toList e.name = true →
      e ∈ find_all_game_paths entries) := by
  constructor
  · intro hmem
    have h := List.mem_filter.mp hmem
    refine ⟨h.1, ?_, ?_⟩
    · have := h.2
      simp only [Bool.and_eq_true] at this
      exact this.2
    · have := h.2
      simp only [Bool.and_eq_true] at this
      exact this.1
  · intro hmem hdir hci
    apply List.mem_filter.mpr
    refine ⟨hmem, ?_⟩
    simp only [Bool.and_eq_true]
    exact ⟨globMatch_of_containsCI_game e.name hci, hdir⟩

/-- C1 counterexample: on the name `gamegame` with pattern `game`, the
transformer finds the first match `game` and then `str.replace` deletes
every occurrence of it, returning the empty name instead of the `game`
that removing only the first occurrence would leave. -/
theorem c1_counterexample :
    get_names_from_paths ["gamegame".toList] "game".toList =
      Except.ok [[]] ∧ ([] : List Char) ≠ "game".toList := by
  constructor
  · simp [get_names_from_paths, reFindFirst, reMatchesAt, parseRegex,
          lowerChar, replaceAll]
  · decide

/-- C1 (amended): for a name with exactly one case-insensitive occurrence of
the (non-empty, metacharacter-free) pattern, at position `i`, the
transformer removes exactly that occurrence and leaves every other
character; when further occurrences exist, all those byte-identical to the
first match are deleted as well (see the counterexample). -/
theorem c1_first_match_unique_removal (pat s : List Char) (i : Nat)
    (hp : pat ≠ []) (hdot : '.' ∉ pat)
    (huniq : (List.range (s.length + 1)).filter
      (fun j => ciMatchAt pat s j) = [i]) :
    get_names_from_paths [s] pat =
      Except.ok [s.take i ++ s.drop (i + pat.length)] := by
  have hi_mem : i ∈ (List.range (s.length + 1)).filter
      (fun j => ciMatchAt pat s j) := by
    rw [huniq]
    exact List.mem_singleton.mpr rfl
  have hmatch : ciMatchAt pat s i = true := (List.mem_filter.mp hi_mem).2
  have hile : i ≤ s.length := by
    have := (List.mem_filter.mp hi_mem).1
    simp only [List.mem_range] at this
    omega
  have huniq' : ∀ j, ciMatchAt pat s j = true → j = i := by
    intro j hj
    by_cases hjr : j ≤ s.length
    · have hmem : j ∈ (List.range (s.length + 1)).filter
          (fun j => ciMatchAt pat s j) :=
        List.mem_filter.mpr ⟨by
          simp only [List.mem_range]
          omega, hj⟩
      rw [huniq] at hmem
      simpa using hmem
    · have hf := ciMatchAt_false_of_gt pat s j hp (by omega)
      rw [hf] at hj
      cases hj
  have hbefore : ∀ j, j < i → ciMatchAt pat s j = false := by
    intro j hj
    cases hcase : ciMatchAt pat s j with
    | false => rfl
    | true => exact absurd (huniq' j hcase) (by omega)
  have hfind := reFindFirst_at pat hdot s i hmatch hbefore
  set w := (s.drop i).take pat.length with hwdef
  have hw_map : w.map lowerChar = pat.map lowerChar := by
    rw [hwdef]
    have h := hmatch
    simp only [ciMatchAt, decide_eq_true_eq] at h
    exact h
  have hw_len : w.length = pat.length := by
    have := congrArg List.length hw_map
    simpa using this
  have hw_ne : w ≠ [] := by
    intro hnil
    rw [hnil] at hw_len
    exact hp (List.length_eq_zero.mp hw_len.symm)
  have hilen : i + pat.length ≤ s.length := by
    have hmin : w.length = min pat.length (s.length - i) := by
      rw [hwdef]
      simp [List.length_take, List.length_drop]
    rw [hw_len] at hmin
    omega
  have hs : s = s.take i ++ (w ++ s.drop (i + pat.length)) := by
    have h1 : w ++ s.drop (i + pat.length) = s.drop i := by
      have h2 : s.drop (i + pat.length) = (s.drop i).drop pat.length := by
        rw [List.drop_drop]
      rw [h2, hwdef, List.take_append_drop]
    rw [h1, List.take_append_drop]
  have hocc : ∀ j, w.isPrefixOf (s.drop j) = true → j = i := by
    intro j hpre
    apply huniq'
    rw [isPrefixOf_iff_take] at hpre
    simp only [ciMatchAt, decide_eq_true_eq]
    rw [← hw_len, hpre]
    exact hw_map
  have hta : (s.take i).length = i := by
    simp only [List.length_take]
    omega
  have hnoa : ∀ j, j < (s.take i).length →
      w.isPrefixOf ((s.take i ++ (w ++ s.drop (i + pat.length))).drop j) =
        false := by
    intro j hj
    rw [← hs]
    cases hcase : w.isPrefixOf (s.drop j) with
    | false => rfl
    | true =>
      rw [hta] at hj
      exact absurd (hocc j hcase) (by omega)
  have hnob : ∀ j, w.isPrefixOf ((s.drop (i + pat.length)).drop j) = false := by
    intro j
    rw [List.drop_drop]
    cases hcase : w.isPrefixOf (s.drop (i + pat.length + j)) with
    | false => rfl
    | true =>
      have hj := hocc _ hcase
      have hplen : 0 < pat.length := List.length_pos.mpr hp
      omega
  have hrepl : replaceAll w s = s.take i ++ s.drop (i + pat.length) := by
    calc replaceAll w s
        = replaceAll w (s.take i ++ (w ++ s.drop (i + pat.length))) := by
          rw [← hs]
      _ = s.take i ++ replaceAll w (s.drop (i + pat.length)) :=
          replaceAll_skip w hw_ne _ _ hnoa
      _ = s.take i ++ s.drop (i + pat.length) := by
          rw [replaceAll_no_occ w hw_ne _ hnob]
  rw [get_names_from_paths, hfind]
  simp only [get_names_from_paths, hrepl]

/-- C1 witness: in `MyGameTwo` the pattern `game` occurs exactly once
(case-insensitively, at position 2), and the transformer yields `MyTwo`. -/
theorem c1_witness :
    get_names_from_paths ["MyGameTwo".toList] "game".toList =
      Except.ok ["MyGameTwo".toList.take 2 ++ "MyGameTwo".toList.drop 6] :=
  c1_first_match_unique_removal "game".toList "MyGameTwo".toList 2
    (by decide) (by decide) (by decide)

/-- C2 witness: a directory whose name contains `Game` is returned; the file
case of the theorem's first part also holds on this instance. -/
theorem c2_witness :
    (⟨"MyGame".toList, true⟩ : Entry) ∈
      find_all_game_paths [⟨"bin".toList, false⟩, ⟨"MyGame".toList, true⟩] :=
  (c2_finder_dirs_glob [⟨"bin".toList, false⟩, ⟨"MyGame".toList, true⟩]
      ⟨"MyGame".toList, true⟩).2 (by decide) rfl (by decide)

/-- C9: the Materializer's copy is an idempotent merge.  For a real source
directory (distinct sibling names), when `copy_and_overwrite` succeeds,
running it again with the unchanged source onto the produced destination
returns the destination unchanged (byte-identical tree), and every
destination child whose name is absent from the source keeps exactly the
entry it had before the copy. -/
theorem c9_copy_idempotent_merge (cs : List (String × FTree))
    (dst : Option FTree) (r : FTree)
    (hwf : wfTree (FTree.dir cs) = true)
    (h : copy_and_overwrite (FTree.dir cs) dst = Except.ok r) :
    copy_and_overwrite (FTree.dir cs) (some r) = Except.ok r ∧
    (∀ n rs, r = FTree.dir rs → hasKey n cs = false →
      lookupChild n rs =
        (match dst with
         | some (FTree.dir ds) => lookupChild n ds
         | _ => none)) := by
  rw [wfTree] at hwf
  cases dst with
  | none =>
    rw [copy_and_overwrite] at h
    cases hok : copyEntries cs [] with
    | error e =>
      rw [hok] at h
      simp at h
    | ok r' =>
      rw [hok] at h
      simp only [Except.ok.injEq] at h
      subst h
      constructor
      · rw [copy_and_overwrite]
        rw [copyEntries_idem cs [] r' hwf hok]
      · intro n rs hrs hk
        simp only [FTree.dir.injEq] at hrs
        subst hrs
        rw [copyEntries_frame cs [] r' hok n hk]
        rw [lookupChild]
  | some t =>
    cases t with
    | file c =>
      rw [copy_and_overwrite] at h
      simp at h
    | dir ds =>
      rw [copy_and_overwrite] at h
      cases hok : copyEntries cs ds with
      | error e =>
        rw [hok] at h
        simp at h
      | ok r' =>
        rw [hok] at h
        simp only [Except.ok.injEq] at h
        subst h
        constructor
        · rw [copy_and_overwrite]
          rw [copyEntries_idem cs ds r' hwf hok]
        · intro n rs hrs hk
          simp only [FTree.dir.injEq] at hrs
          subst hrs
          exact copyEntries_frame cs ds r' hok n hk

/-- C9 witness: copying a source holding file `a` over a destination holding
files `keep` and `a` overwrites `a`, keeps `keep`, and copying again
returns the same tree. -/
theorem c9_witness :
    copy_and_overwrite (FTree.dir [("a", FTree.file ['x'])])
        (some (FTree.dir [("keep", FTree.file ['k']), ("a", FTree.file ['o'])])) =
      Except.ok
        (FTree.dir [("keep", FTree.file ['k']), ("a", FTree.file ['x'])]) ∧
    copy_and_overwrite (FTree.dir [("a", FTree.file ['x'])])
        (some (FTree.dir [("keep", FTree.file ['k']), ("a", FTree.file ['x'])])) =
      Except.ok
        (FTree.dir [("keep", FTree.file ['k']), ("a", FTree.file ['x'])]) := by
  have h1 : copy_and_overwrite (FTree.dir [("a", FTree.file ['x'])])
      (some (FTree.dir [("keep", FTree.file ['k']), ("a", FTree.file ['o'])])) =
      Except.ok
        (FTree.dir [("keep", FTree.file ['k']), ("a", FTree.file ['x'])]) := by
    simp [copy_and_overwrite, copyEntries, lookupChild, updateChild]
  exact ⟨h1,
    (c9_copy_idempotent_merge [("a", FTree.file ['x'])]
      (some (FTree.dir [("keep", FTree.file ['k']), ("a", FTree.file ['o'])]))
      (FTree.dir [("keep", FTree.file ['k']), ("a", FTree.file ['x'])])
      (by simp [wfTree, wfList, hasKey]) h1).1⟩

end GameData
